import Mathlib

/-!
Verification of the ACP metadata-extraction pipeline and in-memory query
engine of the L1Beat front end (`src/data/acps/index.ts`).

The TypeScript source is shallowly embedded: strings are Lean `String`
(lists of characters; JavaScript's UTF-16 units are modelled as Unicode
scalar values, which agrees on the ASCII data this pipeline handles),
regular-expression matching is modelled by explicit left-to-right scanning
functions that mirror the alternation/greediness semantics of the concrete
patterns in the source, and JavaScript `Array.prototype.sort` (stable, and
deterministic for the consistent comparators used here) is modelled by
`List.insertionSort` on the relation `comparator a b ≤ 0`.
-/

namespace ACP

/-- JavaScript `\s` / `trim` whitespace, restricted to the ASCII whitespace
characters that `Char.isWhitespace` recognises (space, tab, CR, LF). -/
def isWs (c : Char) : Bool := c.isWhitespace

/-- JavaScript `\w` word characters: ASCII letters, digits and underscore. -/
def isWordChar (c : Char) : Bool := c.isAlphanum || c = '_'

/-- `needle` occurs as a prefix of `hay` (on character lists). -/
def listPrefixEq : List Char → List Char → Bool
  | [], _ => true
  | _ :: _, [] => false
  | a :: as, b :: bs => a = b && listPrefixEq as bs

/-- `needle` occurs as a contiguous run somewhere in `hay`
(JavaScript `String.prototype.includes`). -/
def containsSub (needle : List Char) : List Char → Bool
  | [] => listPrefixEq needle []
  | c :: rest => listPrefixEq needle (c :: rest) || containsSub needle rest

/-- `hay.includes(needle)` from the source. -/
def containsStr (hay needle : String) : Bool := containsSub needle.data hay.data

/-- `s.startsWith(p)`. -/
def strStarts (s p : String) : Bool := listPrefixEq p.data s.data

/-- Strip leading and trailing whitespace (JavaScript `String.prototype.trim`). -/
def trimChars (cs : List Char) : List Char :=
  ((cs.dropWhile isWs).reverse.dropWhile isWs).reverse

/-- `s.trim()`. -/
def jsTrim (s : String) : String := ⟨trimChars s.data⟩

/-- `s.toLowerCase()` (ASCII case mapping, as `Char.toLower`). -/
def lowerStr (s : String) : String := ⟨s.data.map Char.toLower⟩

/-- Split on a single separator character, keeping empty fields, exactly as
JavaScript `s.split(sep)` for a one-character separator. -/
def splitOnChar (sep : Char) : List Char → List (List Char)
  | [] => [[]]
  | c :: rest =>
    let r := splitOnChar sep rest
    if c = sep then [] :: r
    else
      match r with
      | [] => [[c]]
      | t :: ts => (c :: t) :: ts

/-- `markdown.split('\n')` as a list of lines. -/
def splitLines (s : String) : List String :=
  (splitOnChar '\n' s.data).map (fun cs => (⟨cs⟩ : String))

/-- `line.split('|')` as strings. -/
def splitPipes (s : String) : List String :=
  (splitOnChar '|' s.data).map (fun cs => (⟨cs⟩ : String))

/-- Left-to-right scan used to model anchored-nowhere regular expressions:
`f` attempts a match at the current position; the scan returns the first
(leftmost) success, also trying the empty position at the end of input. -/
def scanMatch (f : List Char → Option α) : List Char → Option α
  | [] => f []
  | c :: rest =>
    match f (c :: rest) with
    | some r => some r
    | none => scanMatch f rest

/-- `Number(s)` for the digit-string identifiers this pipeline produces,
modelled as exact integer parsing (empty string gives `0`, like
`Number("")`; non-numeric strings, which would give `NaN` in JavaScript,
are modelled as `0` — all ids fed to it come from a `\d+` capture). -/
def jsNumber (s : String) : Int :=
  if s.data = [] then 0
  else if s.data.all Char.isDigit then
    (s.data.foldl (fun n c => n * 10 + (c.toNat - '0'.toNat)) 0 : Nat)
  else 0

/-- Sign-valued model of `String.prototype.localeCompare` on characters. -/
def charCmpStep (a b : Char) : Ordering :=
  if a < b then .lt else if b < a then .gt else .eq

/-- Lexicographic comparison of character lists, the model of
`a.localeCompare(b)` (locale-aware collation is modelled as code-point
order; only the sign of the result is ever used by the source). -/
def listCmp : List Char → List Char → Int
  | [], [] => 0
  | [], _ :: _ => -1
  | _ :: _, [] => 1
  | a :: as, b :: bs =>
    if a < b then -1 else if b < a then 1 else listCmp as bs

/-- `a.localeCompare(b)` modelled as code-point lexicographic comparison. -/
def strCmp (a b : String) : Int := listCmp a.data b.data

/-! ## Field sub-parsers (`parseStatus`, `parseDiscussionLink`,
`parseACPReferences`, `parseAuthors`) -/

/-- The bracket alternative `\[([^\]]+)\]` of the status regex, attempted at
the current position: an opening bracket, at least one non-`]` character
(greedy), then a closing bracket. -/
def statusBracket (cs : List Char) : Option (List Char) :=
  match cs with
  | '[' :: rest =>
    let inside := rest.takeWhile (fun c => c ≠ ']')
    let rem := rest.dropWhile (fun c => c ≠ ']')
    if inside ≠ [] ∧ rem ≠ [] then some inside else none
  | _ => none

/-- Left-to-right scan of `/\[([^\]]+)\]|\b(\w+)\b/`: at each position the
bracket alternative is tried first, then a word token (which needs a word
boundary on its left, tracked by `prevW` — whether the previous character
was a word character). Returns the matched group. -/
def statusScan : Bool → List Char → Option (List Char)
  | _, [] => none
  | prevW, c :: rest =>
    match statusBracket (c :: rest) with
    | some g => some g
    | none =>
      if isWordChar c && !prevW then some (c :: rest.takeWhile isWordChar)
      else statusScan (isWordChar c) rest

/-- `parseStatus` from the source:
`(text.match(/\[([^\]]+)\]|\b(\w+)\b/)?.[1] || match?.[2] || 'Unknown').trim()`. -/
def parseStatus (text : String) : String :=
  jsTrim ⟨(statusScan false text.data).getD "Unknown".data⟩

/-- The group `([^)]+)\)`: at least one non-`)` character (greedy) followed
by a closing parenthesis. -/
def closeGroup (cs : List Char) : Option (List Char) :=
  let inside := cs.takeWhile (fun c => c ≠ ')')
  let rem := cs.dropWhile (fun c => c ≠ ')')
  if inside ≠ [] ∧ rem ≠ [] then some inside else none

/-- One position of `/\[Discussion\]\(([^)]+)\)/`. -/
def discussionAt (cs : List Char) : Option (List Char) :=
  if listPrefixEq "[Discussion](".data cs then closeGroup (cs.drop 13)
  else none

/-- `parseDiscussionLink` from the source: the URL of the first markdown
link labelled exactly `Discussion`, if any. -/
def parseDiscussionLink (text : String) : Option String :=
  (scanMatch discussionAt text.data).map (fun cs => (⟨cs⟩ : String))

/-- `text.match(/ACP-(\d+)/g)` with the `ACP-` prefix stripped from every
match, in order of appearance.  After a successful match the scan resumes
after the matched digits in the source; resuming right after the leading
`A` is observationally identical because a later match needs the literal
`ACP-`, which cannot begin inside `CP-<digits>`. -/
def acpRefs : List Char → List String
  | [] => []
  | c :: rest =>
    if listPrefixEq "ACP-".data (c :: rest) then
      let ds := (rest.drop 3).takeWhile Char.isDigit
      if ds ≠ [] then (⟨ds⟩ : String) :: acpRefs rest else acpRefs rest
    else acpRefs rest

/-- `parseACPReferences` from the source. -/
def parseACPReferences (text : String) : List String := acpRefs text.data

/-- One author entry: display name and GitHub handle. -/
structure Author where
  name : String
  github : String
deriving DecidableEq

/-- Characters allowed in the author-name group `[^(@\n]+`. -/
def isAuthorNameChar (c : Char) : Bool := !(c = '(' || c = '@' || c = '\n')

/-- Prepend a character to the first field of a split-in-progress. -/
def consHead (c : Char) : List (List Char) → List (List Char)
  | [] => [[c]]
  | t :: ts => (c :: t) :: ts

/-- Split on the regex `/,|\sand\s/` (a comma, or the word `and` delimited
by one whitespace character on each side), leftmost non-overlapping
matches, keeping empty fields — JavaScript `text.split(/,|\sand\s/)`. -/
def splitAuthorSep : List Char → List (List Char)
  | [] => [[]]
  | ',' :: rest => [] :: splitAuthorSep rest
  | c :: 'a' :: 'n' :: 'd' :: d :: rest2 =>
    if isWs c ∧ isWs d then [] :: splitAuthorSep rest2
    else consHead c (splitAuthorSep ('a' :: 'n' :: 'd' :: d :: rest2))
  | c :: rest => consHead c (splitAuthorSep rest)
termination_by cs => cs.length
decreasing_by all_goals simp <;> omega

/-- Leftmost match of `/([^(@\n]+)(?:\s*\([@]?([^)]+)\))?/`: the name run,
and optionally the parenthesised handle group.  The optional part is
greedy; if the parenthesis never closes it backtracks to the name-only
match, and `[@]?` backtracks when consuming the `@` leaves nothing before
the closing parenthesis. -/
def authorMatch : List Char → Option (List Char × Option (List Char))
  | [] => none
  | c :: rest =>
    if isAuthorNameChar c then
      let nameRun := c :: rest.takeWhile isAuthorNameChar
      let rest2 := (rest.dropWhile isAuthorNameChar).dropWhile isWs
      match rest2 with
      | '(' :: r =>
        let g :=
          match r with
          | '@' :: r2 =>
            match closeGroup r2 with
            | some g => some g
            | none => closeGroup r
          | _ => closeGroup r
        some (nameRun, g)
      | _ => some (nameRun, none)
    else authorMatch rest

/-- `name.toLowerCase().replace(/\s+/g, '')`: the fallback GitHub handle. -/
def fallbackHandle (name : String) : String :=
  ⟨(lowerStr name).data.filter (fun c => !isWs c)⟩

/-- Remove the first `@`, if any (JavaScript `s.replace('@', '')`). -/
def removeFirstAt : List Char → List Char
  | [] => []
  | '@' :: rest => rest
  | c :: rest => c :: removeFirstAt rest

/-- One fragment of the author cell: run the regex, trim the name, derive
the handle, and drop scan artefacts exactly as the source does. -/
def authorFromPart (part : String) : Option Author :=
  match authorMatch part.data with
  | none => none
  | some (nameRun, g) =>
    let name := jsTrim ⟨nameRun⟩
    if name = "" ∨ name = "**Author(s)**" then none
    else
      let github :=
        match g with
        | some gs =>
          let s : String := ⟨removeFirstAt (trimChars gs)⟩
          if s = "" then fallbackHandle name else s
        | none => fallbackHandle name
      some ⟨name, github⟩

/-- `parseAuthors` from the source. -/
def parseAuthors (text : String) : List Author :=
  ((splitAuthorSep text.data).map (fun p => jsTrim ⟨p⟩)).filterMap authorFromPart

/-! ## Derived attributes: abstract, word count, complexity, tags -/

/-- Case-insensitive literal prefix test (pattern, input). -/
def ciStarts : List Char → List Char → Bool
  | [], _ => true
  | _ :: _, [] => false
  | p :: ps, c :: cs => p.toLower = c.toLower && ciStarts ps cs

/-- `s.take n` on raw character lists, as a string. -/
def strTake (s : String) (n : Nat) : String := ⟨s.data.take n⟩

/-- JavaScript `s.lastIndexOf(c)` (−1 when absent). -/
def lastIdxOf (c : Char) (cs : List Char) : Int :=
  match cs.reverse.findIdx? (fun x => x = c) with
  | some i => ((cs.length - 1 - i : Nat) : Int)
  | none => -1

/-- The `\n\n([^#]+)` tail of the abstract-heading regex attempted with the
`\s*` before it consuming exactly `k` characters: both newline characters
must sit inside the maximal whitespace run, and the greedy `[^#]+` group
must be non-empty. -/
def nnGroupAt (rest2 : List Char) (k : Nat) : Option (List Char) :=
  if rest2.getD k ' ' = '\n' ∧ rest2.getD (k + 1) ' ' = '\n' then
    let g := (rest2.drop (k + 2)).takeWhile (fun c => c ≠ '#')
    if g ≠ [] then some g else none
  else none

/-- One position of `/##\s*Abstract\s*\n\n([^#]+)/i`.  The first `\s*` is
followed by a non-whitespace literal, so greediness makes it the maximal
whitespace run; the second `\s*`, followed by `\n\n`, backtracks from the
largest split of the maximal whitespace run (length `m`) downwards. -/
def matchAbstractAt (cs : List Char) : Option (List Char) :=
  match cs with
  | '#' :: '#' :: rest =>
    let rest1 := rest.dropWhile isWs
    if ciStarts "abstract".data rest1 then
      let rest2 := rest1.drop 8
      let m := (rest2.takeWhile isWs).length
      (List.range m).reverse.findSome? (fun k => nnGroupAt rest2 k)
    else none
  | _ => none

/-- `markdown.match(/##\s*Abstract\s*\n\n([^#]+)/i)?.[1]`: the raw (untrimmed)
group of the leftmost match. -/
def abstractHeading (markdown : String) : Option String :=
  (scanMatch matchAbstractAt markdown.data).map (fun cs => (⟨cs⟩ : String))

/-- The Abstract-section truncation from the source: over 200 characters,
cut at 200, back up to the last space when there is one at a positive
index, and append an ellipsis marker. -/
def truncAbs (abstract : String) : String :=
  if abstract.length > 200 then
    let truncated := strTake abstract 200
    let lastSpace := lastIdxOf ' ' truncated.data
    (if lastSpace > 0 then strTake truncated lastSpace.toNat else strTake truncated 200)
      ++ "..."
  else abstract

/-- The fallback loop of `extractAbstract`: scan lines; a `##` heading after
the table ends the scan, the `Track` row turns the `afterTable` flag on, and
the first non-blank, non-pipe, non-hash line after the table is returned
raw (its truncation happens at the caller). -/
def fallbackScan : Bool → List String → Option String
  | _, [] => none
  | afterTable, line :: rest =>
    if strStarts line "##" && afterTable then none
    else if containsStr line "| **Track** |" then fallbackScan true rest
    else if afterTable && jsTrim line ≠ "" && !strStarts line "|" && !strStarts line "#"
      then some line
    else fallbackScan afterTable rest

/-- `extractAbstract` from the source. -/
def extractAbstract (markdown : String) : String :=
  match abstractHeading markdown with
  | some g => truncAbs (jsTrim g)
  | none =>
    match fallbackScan false (splitLines markdown) with
    | some line =>
      if line.length > 200 then strTake line 200 ++ "..." else line
    | none => ""

/-- Count of maximal non-whitespace runs: the length of
`text.split(/\s+/).filter(w => w.length > 0)` in `countWords`. -/
def countWordsAux : Bool → List Char → Nat
  | _, [] => 0
  | inWord, c :: rest =>
    if isWs c then countWordsAux false rest
    else (if inWord then 0 else 1) + countWordsAux true rest

/-- `countWords` from the source: whitespace-delimited non-empty tokens of
the full document text. -/
def countWords (text : String) : Nat := countWordsAux false text.data

/-- The derived complexity classification. -/
inductive Complexity where
  | Low
  | Medium
  | High
deriving DecidableEq

/-- The high-signal keyword list of `estimateComplexity`. -/
def highComplexityKeywords : List String :=
  ["consensus", "protocol", "cryptographic", "algorithm", "byzantine",
   "merkle", "signature", "verification", "validator", "staking"]

/-- The medium-signal keyword list of `estimateComplexity`. -/
def mediumComplexityKeywords : List String :=
  ["implementation", "specification", "interface", "architecture",
   "network", "node", "transaction", "block"]

/-- `estimateComplexity` from the source. -/
def estimateComplexity (markdown : String) (wordCount : Nat) : Complexity :=
  let content := lowerStr markdown
  let highKeywordCount :=
    (highComplexityKeywords.filter (fun kw => containsStr content kw)).length
  let mediumKeywordCount :=
    (mediumComplexityKeywords.filter (fun kw => containsStr content kw)).length
  if wordCount > 4000 ∨ highKeywordCount ≥ 3 then .High
  else if wordCount > 2000 ∨ highKeywordCount ≥ 1 ∨ mediumKeywordCount ≥ 3 then .Medium
  else .Low

/-- The fixed tag-name → keyword-set mapping of `extractTags`. -/
def tagMap : List (String × List String) :=
  [("subnet", ["subnet", "subnets", "l1"]),
   ("consensus", ["consensus", "validator", "staking"]),
   ("teleporter", ["teleporter", "messaging", "interchain"]),
   ("security", ["security", "cryptographic", "signature"]),
   ("performance", ["performance", "optimization", "efficiency"]),
   ("api", ["api", "interface", "rpc"]),
   ("governance", ["governance", "voting", "proposal"]),
   ("economics", ["economics", "fee", "reward", "token"]),
   ("networking", ["network", "peer", "connection", "protocol"]),
   ("virtual-machine", ["vm", "virtual machine", "evm"])]

/-- `extractTags` from the source: tags whose keyword set hits the lowered
`markdown + ' ' + title`, in map order, truncated to five. -/
def extractTags (markdown title : String) : List String :=
  let content := lowerStr (markdown ++ " " ++ title)
  (((tagMap.filter (fun t => t.2.any (fun kw => containsStr content kw))).map
    (fun t => t.1)).take 5)

/-! ## Identifier extraction and the metadata-table scan -/

/-- One position of `/\/(\d+)-[^/]+\/README\.md$/`: a slash, a maximal
digit run (greedy `\d+` can only end where a non-digit follows, so only the
maximal run can be followed by the literal `-`), a dash, a non-empty
slash-free segment, and then exactly `/README.md` at the end of input
(the `$` anchor). -/
def pathMatchAt : List Char → Option String
  | '/' :: rest =>
    let ds := rest.takeWhile Char.isDigit
    let rest2 := rest.dropWhile Char.isDigit
    (match ds, rest2 with
     | _ :: _, '-' :: rest3 =>
       let seg := rest3.takeWhile (fun c => c ≠ '/')
       let rest4 := rest3.dropWhile (fun c => c ≠ '/')
       if seg ≠ [] ∧ rest4 = "/README.md".data then some (⟨ds⟩ : String) else none
     | _, _ => none)
  | _ => none

/-- `filePath.match(/\/(\d+)-[^/]+\/README\.md$/)?.[1]`, the extracted id. -/
def pathNumber (filePath : String) : Option String :=
  scanMatch pathMatchAt filePath.data

/-- The table-header marker test:
`line.startsWith('| ACP |') || line.includes('| **ACP** |')`. -/
def isTableHeaderLine (line : String) : Bool :=
  strStarts line "| ACP |" || containsStr line "| **ACP** |"

/-- `line.split('|')[2]` with `undefined` as the empty string. -/
def cellTwo (line : String) : String := (splitPipes line).getD 2 ""

/-- The mutable locals of the `parseACPMarkdown` line loop. -/
structure ParseState where
  inTable : Bool := false
  title : String := ""
  authors : List Author := []
  status : String := ""
  track : String := ""
  discussion : Option String := some ""
  dependencies : List String := []
  replaces : List String := []
  supersededBy : List String := []
deriving DecidableEq

/-- The labelled-row dispatch (the `else if` chain of the loop body). -/
def applyRow (st : ParseState) (line : String) : ParseState :=
  if containsStr line "| **Title** |" then
    { st with title := jsTrim (cellTwo line) }
  else if containsStr line "| **Author(s)** |" then
    { st with authors := parseAuthors (cellTwo line) }
  else if containsStr line "| **Status** |" then
    { st with status := parseStatus (cellTwo line),
              discussion := parseDiscussionLink (cellTwo line) }
  else if containsStr line "| **Track** |" then
    { st with track := jsTrim (cellTwo line) }
  else if containsStr line "| **Depends-On** |" then
    { st with dependencies := parseACPReferences (cellTwo line) }
  else if containsStr line "| **Replaces** |" then
    { st with replaces := parseACPReferences (cellTwo line) }
  else if containsStr line "| **Superseded-By** |" then
    { st with supersededBy := parseACPReferences (cellTwo line) }
  else st

/-- The `for (const line of lines)` loop: skip blank lines, switch into the
table at a header marker, ignore everything before it, stop at a `##`
heading, and otherwise dispatch on the labelled rows. -/
def scanTable (st : ParseState) : List String → ParseState
  | [] => st
  | line :: rest =>
    if jsTrim line = "" then scanTable st rest
    else if isTableHeaderLine line then scanTable { st with inTable := true } rest
    else if !st.inTable then scanTable st rest
    else if strStarts line "##" then st
    else scanTable (applyRow st line) rest

/-- The structured proposal record (`LocalACP`).  Optional TypeScript fields
are `Option`s; the extractor always assigns `abstract`, `complexity`,
`tags`, `wordCount`, `readingTime` and the reference lists, so it produces
them as `some`, and never assigns `lastUpdated`. -/
structure LocalACP where
  number : String
  title : String
  authors : List Author
  status : String
  track : String
  content : String
  discussion : Option String
  abstract : Option String
  complexity : Option Complexity
  tags : Option (List String)
  wordCount : Option Nat
  readingTime : Option Nat
  lastUpdated : Option String
  dependencies : Option (List String)
  replaces : Option (List String)
  supersededBy : Option (List String)
deriving DecidableEq

/-- `parseACPMarkdown` from the source.  `Math.ceil(wordCount / 200)` is
`(wordCount + 199) / 200` on naturals. -/
def parseACPMarkdown (markdown filePath : String) : Option LocalACP :=
  match pathNumber filePath with
  | none => none
  | some number =>
    let st := scanTable {} (splitLines markdown)
    if st.title = "" ∨ st.status = "" ∨ st.track = "" then none
    else
      let wordCount := countWords markdown
      some { number := number
             title := st.title
             authors := st.authors
             status := st.status
             track := st.track
             content := markdown
             discussion := st.discussion
             abstract := some (extractAbstract markdown)
             complexity := some (estimateComplexity markdown wordCount)
             tags := some (extractTags markdown st.title)
             wordCount := some wordCount
             readingTime := some ((wordCount + 199) / 200)
             lastUpdated := none
             dependencies := some st.dependencies
             replaces := some st.replaces
             supersededBy := some st.supersededBy }

/-! ## Query engine: search and sort, and the cached collection -/

/-- The per-record predicate of `searchACPs` (the body of the `filter`). -/
def searchPred (searchTerm : String) (acp : LocalACP) : Bool :=
  containsStr acp.number searchTerm ||
  containsStr (lowerStr acp.title) searchTerm ||
  acp.authors.any (fun author => containsStr (lowerStr author.name) searchTerm) ||
  containsStr (lowerStr acp.status) searchTerm ||
  containsStr (lowerStr acp.track) searchTerm ||
  (match acp.abstract with
   | some a => containsStr (lowerStr a) searchTerm
   | none => false) ||
  (match acp.tags with
   | some ts => ts.any (fun tag => containsStr (lowerStr tag) searchTerm)
   | none => false)

/-- `searchACPs` from the source. -/
def searchACPs (acps : List LocalACP) (query : String) : List LocalACP :=
  if jsTrim query = "" then acps
  else acps.filter (searchPred (lowerStr query))

/-- The sort keys of `sortACPs`. -/
inductive SortBy where
  | number
  | title
  | status
  | complexity
deriving DecidableEq

/-- The sort directions of `sortACPs`. -/
inductive SortOrder where
  | asc
  | desc
deriving DecidableEq

/-- The `complexityOrder` table (`Low` 1, `Medium` 2, `High` 3). -/
def complexityOrder : Complexity → Int
  | .Low => 1
  | .Medium => 2
  | .High => 3

/-- The `switch (sortBy)` comparison of `sortACPs` (before direction). -/
def cmpBy (sortBy : SortBy) (a b : LocalACP) : Int :=
  match sortBy with
  | .number => jsNumber a.number - jsNumber b.number
  | .title => strCmp a.title b.title
  | .status => strCmp a.status b.status
  | .complexity =>
    complexityOrder (a.complexity.getD .Low) - complexityOrder (b.complexity.getD .Low)

/-- The comparator handed to `Array.prototype.sort`, direction applied. -/
def sortCmp (sortBy : SortBy) (order : SortOrder) (a b : LocalACP) : Int :=
  match order with
  | .desc => -(cmpBy sortBy a b)
  | .asc => cmpBy sortBy a b

/-- `sortACPs` from the source: `[...acps].sort(comparator)`.  The stable
JavaScript sort with this consistent comparator is `List.insertionSort` on
the relation `comparator a b ≤ 0`; the spread copy makes it a pure
function of its input. -/
def sortACPs (acps : List LocalACP) (sortBy : SortBy) (order : SortOrder) :
    List LocalACP :=
  List.insertionSort (fun a b => sortCmp sortBy order a b ≤ 0) acps

/-- The value of the sort key of a record, for stating stability: records
compare equal under `cmpBy k` exactly when their `sortKey k` agree. -/
def sortKey (sortBy : SortBy) (a : LocalACP) : Int ⊕ String :=
  match sortBy with
  | .number => .inl (jsNumber a.number)
  | .title => .inr a.title
  | .status => .inr a.status
  | .complexity => .inl (complexityOrder (a.complexity.getD .Low))

/-- `getAllLocalACPs` from the source, as a function of the raw
`(path, markdown)` collection the glob import provides: parse every file
(dropping failures) and sort by numeric id, newest first.  This is the
value the process-wide cache holds once populated. -/
def getAllLocalACPs (files : List (String × String)) : List LocalACP :=
  List.insertionSort (fun a b => jsNumber b.number - jsNumber a.number ≤ 0)
    (files.filterMap (fun f => parseACPMarkdown f.2 f.1))

/-- `getACPByNumber` from the source: `acps.find(...) || null`. -/
def getACPByNumber (files : List (String × String)) (number : String) :
    Option LocalACP :=
  (getAllLocalACPs files).find? (fun acp => acp.number == number)

/-! ## Spec-side definitions and concrete fixtures -/

/-- `needle` is a substring of `hay`, as a proposition (for stating the
search claim the way the spec words it). -/
def IsSubstring (needle hay : String) : Prop := containsSub needle.data hay.data = true

/-- The spec's complexity decision rule, transcribed from its words for the
refinement comparison: `High` if `wordCount > 4000` or at least 3 distinct
high-signal keywords are present (case-insensitive substring of the
lower-cased full text); else `Medium` if `wordCount > 2000` or at least 1
high-signal keyword or at least 3 medium-signal keywords are present; else
`Low`. -/
def specComplexity (text : String) (wordCount : Nat) : Complexity :=
  let lowered := lowerStr text
  let distinctHigh :=
    (highComplexityKeywords.filter (fun kw => containsStr lowered kw)).length
  let distinctMedium :=
    (mediumComplexityKeywords.filter (fun kw => containsStr lowered kw)).length
  if wordCount > 4000 ∨ distinctHigh ≥ 3 then .High
  else if wordCount > 2000 ∨ distinctHigh ≥ 1 ∨ distinctMedium ≥ 3 then .Medium
  else .Low

/-- A minimal record literal for concrete query-engine inputs. -/
def mkACP (number title status : String) : LocalACP :=
  { number := number, title := title, authors := [], status := status
    track := "Standards", content := "", discussion := none, abstract := none
    complexity := none, tags := none, wordCount := none, readingTime := none
    lastUpdated := none, dependencies := none, replaces := none
    supersededBy := none }

/-- Two records sharing the numeric sort key `1` but otherwise distinct. -/
def recA : LocalACP := mkACP "1" "Alpha" "Draft"

/-- See `recA`. -/
def recB : LocalACP := mkACP "1" "Beta" "Draft"

/-- Records with pairwise distinct numeric sort keys. -/
def recC : LocalACP := mkACP "2" "Gamma" "Draft"

/-- See `recC`. -/
def recD : LocalACP := mkACP "5" "Delta" "Activated"

/-- A 201-character line whose only space sits at index 100. -/
def longLine : String :=
  ⟨List.replicate 100 'a' ++ ' ' :: List.replicate 100 'b'⟩

/-- A document with no `Abstract` heading whose fallback prose line is
`longLine`. -/
def fallbackDoc : String := "| **Track** | x |\n" ++ longLine

/-- A well-formed document whose abstract derivation yields the empty
string: no `Abstract` heading, and nothing after the `Track` row. -/
def emptyAbstractDoc : String :=
  "| ACP | 9 |\n| **Title** | T |\n| **Status** | Draft |\n| **Track** | Standards |"

/-- A small well-formed document used as a concrete parse input. -/
def sampleDoc : String :=
  "| ACP | 5 |\n| **Title** | Alpha Prop |\n| **Status** | Draft |\n| **Track** | Standards |"

/-- A path for `sampleDoc` carrying id `5`. -/
def samplePath : String := "/x/ACPs/5-alpha/README.md"

/-- A one-document raw collection feeding `getAllLocalACPs`. -/
def sampleFiles : List (String × String) := [(samplePath, sampleDoc)]

/-! ## Theorems -/

/-- The complexity classifier follows the spec's ordered decision rule
exactly, and word count above 4000 forces `High` regardless of keyword
content. -/
theorem estimateComplexity_decision_rule (markdown : String) (wordCount : Nat) :
    estimateComplexity markdown wordCount = specComplexity markdown wordCount ∧
    (wordCount > 4000 → estimateComplexity markdown wordCount = .High) := by
  refine ⟨rfl, fun h => ?_⟩
  simp [estimateComplexity, h]

/-- Instantiation of `estimateComplexity_decision_rule` at a document of
4001 words with no keywords at all. -/
theorem estimateComplexity_decision_rule_inst :
    estimateComplexity "" 4001 = Complexity.High :=
  (estimateComplexity_decision_rule "" 4001).2 (by decide)

/-- `searchACPs` returns a subsequence of its input; an empty or
whitespace-only query returns the input unchanged; a non-blank query keeps
exactly the records matched by the search predicate, and that predicate
holds exactly when the lower-cased query is a substring of the id, the
title, some author's display name, the status, the track, the abstract (if
present), or some tag. -/
theorem searchACPs_spec (acps : List LocalACP) (query : String) :
    (searchACPs acps query).Sublist acps ∧
    (jsTrim query = "" → searchACPs acps query = acps) ∧
    (jsTrim query ≠ "" →
      searchACPs acps query = acps.filter (searchPred (lowerStr query))) ∧
    (∀ acp, searchPred (lowerStr query) acp = true ↔
      (IsSubstring (lowerStr query) acp.number ∨
       IsSubstring (lowerStr query) (lowerStr acp.title) ∨
       (∃ a ∈ acp.authors, IsSubstring (lowerStr query) (lowerStr a.name)) ∨
       IsSubstring (lowerStr query) (lowerStr acp.status) ∨
       IsSubstring (lowerStr query) (lowerStr acp.track) ∨
       (∃ ab, acp.abstract = some ab ∧ IsSubstring (lowerStr query) (lowerStr ab)) ∨
       (∃ ts, acp.tags = some ts ∧
         ∃ t ∈ ts, IsSubstring (lowerStr query) (lowerStr t)))) := by
  refine ⟨?_, fun h => ?_, fun h => ?_, fun acp => ?_⟩
  · unfold searchACPs
    split
    · exact List.Sublist.refl _
    · exact List.filter_sublist _
  · simp [searchACPs, h]
  · simp [searchACPs, h]
  · unfold searchPred IsSubstring containsStr
    cases habs : acp.abstract <;> cases htag : acp.tags <;>
      simp [List.any_eq_true, habs, htag, or_assoc]

/-- Instantiation of `searchACPs_spec`: a whitespace query is the identity
and a non-matching query filters everything out. -/
theorem searchACPs_spec_inst :
    searchACPs [recC] " " = [recC] ∧ searchACPs [recC] "zzz" = [] := by
  constructor
  · exact (searchACPs_spec [recC] " ").2.1 (by decide)
  · have h := (searchACPs_spec [recC] "zzz").2.2.1 (by decide)
    rw [h]; decide

/-- A scan that never sees a table-header marker leaves the loop state
untouched (in particular `title`, `status`, `track` stay empty). -/
theorem scanTable_no_header (lines : List String) (st : ParseState)
    (hin : st.inTable = false)
    (h : ∀ l ∈ lines, isTableHeaderLine l = false) : scanTable st lines = st := by
  induction lines with
  | nil => rfl
  | cons line rest ih =>
    have hl : isTableHeaderLine line = false := h line (by simp)
    have hrest : ∀ l ∈ rest, isTableHeaderLine l = false :=
      fun l hm => h l (List.mem_cons_of_mem _ hm)
    by_cases hb : jsTrim line = "" <;>
      simp [scanTable, hb, hl, hin, ih hrest]

/-- `parseACPMarkdown` never escapes its boundary with anything but a
result: it returns `none` when the path has no digit-prefixed segment,
when no line carries the metadata-table header marker, and when any of
`title`, `status`, `track` comes out of the scan empty; a record is
returned only with all three non-empty. -/
theorem parseACPMarkdown_null_conditions (markdown filePath : String) :
    (pathNumber filePath = none → parseACPMarkdown markdown filePath = none) ∧
    ((∀ l ∈ splitLines markdown, isTableHeaderLine l = false) →
      parseACPMarkdown markdown filePath = none) ∧
    ((scanTable {} (splitLines markdown)).title = "" ∨
     (scanTable {} (splitLines markdown)).status = "" ∨
     (scanTable {} (splitLines markdown)).track = "" →
      parseACPMarkdown markdown filePath = none) ∧
    (∀ r, parseACPMarkdown markdown filePath = some r →
      r.title ≠ "" ∧ r.status ≠ "" ∧ r.track ≠ "") := by
  refine ⟨fun h => ?_, fun h => ?_, fun h => ?_, fun r h => ?_⟩
  · unfold parseACPMarkdown
    rw [h]
  · unfold parseACPMarkdown
    cases hp : pathNumber filePath with
    | none => rfl
    | some n =>
      rw [scanTable_no_header _ _ rfl h]
      rfl
  · unfold parseACPMarkdown
    cases hp : pathNumber filePath with
    | none => rfl
    | some n => simp [h]
  · unfold parseACPMarkdown at h
    cases hp : pathNumber filePath with
    | none => rw [hp] at h; exact absurd h (by simp)
    | some n =>
      rw [hp] at h
      dsimp only at h
      split at h
      · exact absurd h (by simp)
      · next hc =>
          push_neg at hc
          cases h
          exact hc

/-- Instantiation of `parseACPMarkdown_null_conditions`: a path without a
digit-prefixed segment, and a document without a header marker, are both
rejected. -/
theorem parseACPMarkdown_null_conditions_inst :
    parseACPMarkdown sampleDoc "nope" = none ∧
    parseACPMarkdown "no table here" samplePath = none :=
  ⟨(parseACPMarkdown_null_conditions sampleDoc "nope").1 (by decide),
   (parseACPMarkdown_null_conditions "no table here" samplePath).2.1 (by decide)⟩

/-- Every record the extractor produces carries `abstract` as a present
field whose value is `extractAbstract` of the document — the empty string,
not an absent field, when neither derivation path yields text. -/
theorem abstract_present_value (markdown filePath : String) :
    (parseACPMarkdown markdown filePath).map (fun r => r.abstract) =
    (parseACPMarkdown markdown filePath).map
      (fun _ => some (extractAbstract markdown)) := by
  unfold parseACPMarkdown
  cases pathNumber filePath with
  | none => rfl
  | some n =>
    dsimp only
    split
    · rfl
    · rfl

/-- A well-formed document on which both abstract-derivation paths come up
empty still parses to a record whose `abstract` is present with the empty
string — it is not absent. -/
theorem abstract_empty_counterexample :
    (parseACPMarkdown emptyAbstractDoc "/x/ACPs/9-t/README.md").map
      (fun r => r.abstract) = some (some "") ∧
    extractAbstract emptyAbstractDoc = "" := by
  constructor <;> decide

/-- `Math.ceil(wordCount / 200)` on naturals. -/
theorem ceil_div_two_hundred (wc : Nat) :
    ⌈(wc : ℚ) / 200⌉₊ = (wc + 199) / 200 := by
  rcases Nat.eq_zero_or_pos wc with hz | hpos
  · subst hz; simp
  · have hdm := Nat.div_add_mod (wc + 199) 200
    have hlt : (wc + 199) % 200 < 200 := Nat.mod_lt _ (by norm_num)
    set q := (wc + 199) / 200 with hqdef
    have hub : wc ≤ 200 * q := by omega
    have hlb : 200 * q < wc + 200 := by omega
    have hq1 : 1 ≤ q := by omega
    rw [Nat.ceil_eq_iff (by omega)]
    constructor
    · rw [lt_div_iff₀ (by norm_num : (0 : ℚ) < 200)]
      have : (q - 1) * 200 < wc := by omega
      exact_mod_cast this
    · rw [div_le_iff₀ (by norm_num : (0 : ℚ) < 200)]
      have : wc ≤ q * 200 := by omega
      exact_mod_cast this

/-- Every record's `wordCount` is the whitespace-token count of the full
document, its `readingTime` is `(wordCount + 199) / 200`, that value is
exactly `⌈wordCount / 200⌉`, and it is at least 1 whenever the word count
is. -/
theorem readingTime_ceil (markdown filePath : String) :
    (parseACPMarkdown markdown filePath).map (fun r => r.wordCount) =
      (parseACPMarkdown markdown filePath).map
        (fun _ => some (countWords markdown)) ∧
    (parseACPMarkdown markdown filePath).map (fun r => r.readingTime) =
      (parseACPMarkdown markdown filePath).map
        (fun _ => some ((countWords markdown + 199) / 200)) ∧
    ⌈(countWords markdown : ℚ) / 200⌉₊ = (countWords markdown + 199) / 200 ∧
    (1 ≤ countWords markdown → 1 ≤ (countWords markdown + 199) / 200) := by
  refine ⟨?_, ?_, ceil_div_two_hundred _, fun h => ?_⟩
  · unfold parseACPMarkdown
    cases pathNumber filePath with
    | none => rfl
    | some n =>
      dsimp only
      split <;> rfl
  · unfold parseACPMarkdown
    cases pathNumber filePath with
    | none => rfl
    | some n =>
      dsimp only
      split <;> rfl
  · have := Nat.div_add_mod (countWords markdown + 199) 200
    have : (countWords markdown + 199) % 200 < 200 := Nat.mod_lt _ (by norm_num)
    omega

/-- Instantiation of `readingTime_ceil`: a two-word document reads in one
minute. -/
theorem readingTime_ceil_inst : 1 ≤ (countWords "hello world" + 199) / 200 :=
  (readingTime_ceil "hello world" "p").2.2.2 (by decide)

/-! ### Comparator algebra -/

/-- Swapping the arguments of the lexicographic comparison negates it. -/
theorem listCmp_anti : ∀ a b : List Char, listCmp b a = -listCmp a b
  | [], [] => rfl
  | [], _ :: _ => rfl
  | _ :: _, [] => rfl
  | a :: as, b :: bs => by
    rcases lt_trichotomy a b with h | h | h
    · simp [listCmp, h, lt_asymm h]
    · subst h
      simp [listCmp, lt_irrefl, listCmp_anti as bs]
    · simp [listCmp, h, lt_asymm h]

/-- Transitivity of the non-positive side of the lexicographic comparison. -/
theorem listCmp_le_trans :
    ∀ a b c : List Char, listCmp a b ≤ 0 → listCmp b c ≤ 0 → listCmp a c ≤ 0
  | [], _, c, _, _ => by cases c <;> simp [listCmp]
  | _ :: _, [], _, hab, _ => by simp [listCmp] at hab
  | _ :: _, _ :: _, [], _, hbc => by simp [listCmp] at hbc
  | a :: as, b :: bs, c :: cs, hab, hbc => by
    simp only [listCmp] at hab hbc ⊢
    rcases lt_trichotomy a b with h1 | h1 | h1
    · rcases lt_trichotomy b c with h2 | h2 | h2
      · simp [lt_trans h1 h2]
      · subst h2
        simp [h1]
      · rw [if_neg (lt_asymm h2), if_pos h2] at hbc
        omega
    · subst h1
      rcases lt_trichotomy a c with h2 | h2 | h2
      · simp [h2]
      · subst h2
        rw [if_neg (lt_irrefl a), if_neg (lt_irrefl a)] at hab hbc ⊢
        exact listCmp_le_trans as bs cs hab hbc
      · rw [if_neg (lt_asymm h2), if_pos h2] at hbc
        omega
    · rw [if_neg (lt_asymm h1), if_pos h1] at hab
      omega

/-- The lexicographic comparison vanishes exactly on equal lists. -/
theorem listCmp_eq_zero_iff : ∀ a b : List Char, listCmp a b = 0 ↔ a = b
  | [], [] => by simp [listCmp]
  | [], _ :: _ => by simp [listCmp]
  | _ :: _, [] => by simp [listCmp]
  | a :: as, b :: bs => by
    rcases lt_trichotomy a b with h | h | h
    · simp [listCmp, h, ne_of_lt h]
    · subst h
      simp [listCmp, lt_irrefl, listCmp_eq_zero_iff as bs]
    · simp [listCmp, h, lt_asymm h, (ne_of_lt h).symm]

/-- `strCmp` vanishes exactly on equal strings. -/
theorem strCmp_eq_zero_iff (s t : String) : strCmp s t = 0 ↔ s = t := by
  rw [strCmp, listCmp_eq_zero_iff]
  exact ⟨fun h => String.ext h, fun h => by rw [h]⟩

/-- Swapping the record arguments of a key comparison negates it. -/
theorem cmpBy_anti (k : SortBy) (a b : LocalACP) : cmpBy k b a = -cmpBy k a b := by
  cases k
  · simp only [cmpBy]; omega
  · exact listCmp_anti _ _
  · exact listCmp_anti _ _
  · simp only [cmpBy]; omega

/-- The non-positive side of every key comparison is transitive. -/
theorem cmpBy_le_trans (k : SortBy) (a b c : LocalACP)
    (hab : cmpBy k a b ≤ 0) (hbc : cmpBy k b c ≤ 0) : cmpBy k a c ≤ 0 := by
  cases k
  · simp only [cmpBy] at *; omega
  · exact listCmp_le_trans _ _ _ hab hbc
  · exact listCmp_le_trans _ _ _ hab hbc
  · simp only [cmpBy] at *; omega

/-- A key comparison vanishes exactly when the sort keys agree. -/
theorem cmpBy_eq_zero_iff (k : SortBy) (a b : LocalACP) :
    cmpBy k a b = 0 ↔ sortKey k a = sortKey k b := by
  cases k
  · simp only [cmpBy, sortKey, Sum.inl.injEq]; omega
  · simp only [cmpBy, sortKey, Sum.inr.injEq]; exact strCmp_eq_zero_iff _ _
  · simp only [cmpBy, sortKey, Sum.inr.injEq]; exact strCmp_eq_zero_iff _ _
  · simp only [cmpBy, sortKey, Sum.inl.injEq]; omega

/-- The directed comparator vanishes exactly when the undirected one does. -/
theorem sortCmp_eq_zero_iff (k : SortBy) (d : SortOrder) (a b : LocalACP) :
    sortCmp k d a b = 0 ↔ cmpBy k a b = 0 := by
  cases d <;> simp [sortCmp, neg_eq_zero]

/-! ### Stable-sort lemmas -/

/-- Inserting an element that satisfies `p` commutes with `filter p`
provided every element it jumps over fails `p`. -/
theorem filter_orderedInsert_pos (r : α → α → Prop) [DecidableRel r]
    (p : α → Bool) (a : α) :
    ∀ l : List α, (∀ b ∈ l, ¬r a b → p b = false) → p a = true →
      (List.orderedInsert r a l).filter p = a :: l.filter p
  | [], _, ha => by simp [List.orderedInsert, ha]
  | b :: l, h, ha => by
    by_cases hr : r a b
    · simp [List.orderedInsert, hr, List.filter_cons, ha]
    · have hb : p b = false := h b (by simp) hr
      simp only [List.orderedInsert, if_neg hr, List.filter_cons, hb,
        Bool.false_eq_true, if_false]
      exact filter_orderedInsert_pos r p a l
        (fun c hc => h c (List.mem_cons_of_mem _ hc)) ha

/-- Inserting an element that fails `p` is invisible to `filter p`. -/
theorem filter_orderedInsert_neg (r : α → α → Prop) [DecidableRel r]
    (p : α → Bool) (a : α) :
    ∀ l : List α, p a = false → (List.orderedInsert r a l).filter p = l.filter p
  | [], ha => by simp [List.orderedInsert, ha]
  | b :: l, ha => by
    by_cases hr : r a b
    · simp [List.orderedInsert, hr, List.filter_cons, ha]
    · simp only [List.orderedInsert, if_neg hr, List.filter_cons]
      rw [filter_orderedInsert_neg r p a l ha]

/-- Stability of insertion sort, in filter form: when `p`-elements can never
strictly jump over each other, sorting preserves the subsequence of
`p`-elements. -/
theorem filter_insertionSort (r : α → α → Prop) [DecidableRel r] (p : α → Bool)
    (hp : ∀ a b, p a = true → ¬r a b → p b = false) :
    ∀ l : List α, (List.insertionSort r l).filter p = l.filter p
  | [] => rfl
  | x :: xs => by
    show (List.orderedInsert r x (List.insertionSort r xs)).filter p = _
    by_cases hx : p x
    · rw [filter_orderedInsert_pos r p x _ (fun b _ hrb => hp x b hx hrb) hx]
      rw [filter_insertionSort r p hp xs]
      simp [List.filter_cons, hx]
    · rw [filter_orderedInsert_neg r p x _ (by simpa using hx)]
      rw [filter_insertionSort r p hp xs]
      simp [List.filter_cons, Bool.of_not_eq_true hx]

/-- An element no element of `l` may precede is inserted at the very end. -/
theorem orderedInsert_of_forall_not (r : α → α → Prop) [DecidableRel r] (a : α) :
    ∀ l : List α, (∀ b ∈ l, ¬r a b) → List.orderedInsert r a l = l ++ [a]
  | [], _ => rfl
  | b :: l, h => by
    have hr : ¬r a b := h b (by simp)
    simp only [List.orderedInsert, if_neg hr, List.cons_append, List.cons.injEq,
      true_and]
    exact orderedInsert_of_forall_not r a l (fun c hc => h c (List.mem_cons_of_mem _ hc))

/-- Insertion-sorting a list in which no earlier element may precede a later
one reverses it. -/
theorem insertionSort_eq_reverse (r : α → α → Prop) [DecidableRel r] :
    ∀ l : List α, l.Pairwise (fun x y => ¬r x y) →
      List.insertionSort r l = l.reverse
  | [], _ => rfl
  | x :: xs, h => by
    rcases List.pairwise_cons.mp h with ⟨hx, hxs⟩
    show List.orderedInsert r x (List.insertionSort r xs) = _
    rw [insertionSort_eq_reverse r xs hxs,
      orderedInsert_of_forall_not r x _ (fun b hb => hx b (List.mem_reverse.mp hb)),
      List.reverse_cons]

/-- `sortACPs` produces a permutation of its input (the input itself,
being a distinct list value in this pure embedding of `[...acps].sort`,
is untouched), and the sort is stable: for every key value, the
subsequence of records carrying that key is preserved. -/
theorem sortACPs_stable_perm (acps : List LocalACP) (k : SortBy) (d : SortOrder) :
    (sortACPs acps k d).Perm acps ∧
    ∀ v : Int ⊕ String,
      (sortACPs acps k d).filter (fun r => sortKey k r = v) =
        acps.filter (fun r => sortKey k r = v) := by
  constructor
  · exact List.perm_insertionSort _ _
  · intro v
    apply filter_insertionSort
    intro a b ha hr
    simp only [decide_eq_true_eq] at ha
    simp only [decide_eq_false_iff_not]
    intro hb
    apply hr
    have hz : cmpBy k a b = 0 := (cmpBy_eq_zero_iff k a b).mpr (ha.trans hb.symm)
    have hz' : sortCmp k d a b = 0 := (sortCmp_eq_zero_iff k d a b).mpr hz
    omega

/-- With two records sharing the numeric key, the descending re-sort of the
ascending sort keeps their stable (original) order, so it is not the exact
reverse of the ascending sort. -/
theorem sortACPs_roundtrip_counterexample :
    sortACPs (sortACPs [recA, recB] .number .asc) .number .desc ≠
      (sortACPs [recA, recB] .number .asc).reverse := by decide

/-- When no two records of the collection compare equal under the chosen
key, descending-sorting the ascending sort yields its exact reverse. -/
theorem sortACPs_roundtrip_of_distinct_keys (acps : List LocalACP) (k : SortBy)
    (h : acps.Pairwise fun a b => cmpBy k a b ≠ 0) :
    sortACPs (sortACPs acps k .asc) k .desc = (sortACPs acps k .asc).reverse := by
  haveI i1 : IsTotal LocalACP (fun a b => cmpBy k a b ≤ 0) :=
    ⟨fun a b => by have := cmpBy_anti k a b; omega⟩
  haveI i2 : IsTrans LocalACP (fun a b => cmpBy k a b ≤ 0) :=
    ⟨fun a b c => cmpBy_le_trans k a b c⟩
  have hperm : (sortACPs acps k .asc).Perm acps := List.perm_insertionSort _ _
  have hsym : ∀ {a b : LocalACP}, cmpBy k a b ≠ 0 → cmpBy k b a ≠ 0 :=
    fun {a b} hab => by have := cmpBy_anti k a b; omega
  have hne : (sortACPs acps k .asc).Pairwise (fun a b => cmpBy k a b ≠ 0) :=
    (hperm.pairwise_iff hsym).mpr h
  have hsorted : (sortACPs acps k .asc).Pairwise (fun a b => cmpBy k a b ≤ 0) :=
    List.sorted_insertionSort (fun a b : LocalACP => cmpBy k a b ≤ 0) acps
  have hstrict : (sortACPs acps k .asc).Pairwise (fun a b => cmpBy k a b < 0) :=
    (hsorted.and hne).imp (fun hc => lt_of_le_of_ne hc.1 hc.2)
  show List.insertionSort (fun a b => sortCmp k .desc a b ≤ 0) (sortACPs acps k .asc)
      = (sortACPs acps k .asc).reverse
  apply insertionSort_eq_reverse
  exact hstrict.imp (fun {x y} hlt => by simp only [sortCmp]; omega)

/-- Instantiation of `sortACPs_roundtrip_of_distinct_keys` on a collection
with pairwise distinct numeric keys. -/
theorem sortACPs_roundtrip_of_distinct_keys_inst :
    sortACPs (sortACPs [recD, recC] .number .asc) .number .desc =
      (sortACPs [recD, recC] .number .asc).reverse :=
  sortACPs_roundtrip_of_distinct_keys [recD, recC] .number (by decide)

/-- `find?` skips a run of non-matching elements and stops at the first
match. -/
theorem find_append_skip (p : α → Bool) :
    ∀ l1 : List α, ∀ r : α, ∀ l2 : List α, (∀ x ∈ l1, p x = false) → p r = true →
      (l1 ++ r :: l2).find? p = some r
  | [], r, l2, _, hr => by simp [List.find?_cons_of_pos _ hr]
  | x :: l1, r, l2, h, hr => by
    have hx : p x = false := h x (by simp)
    rw [List.cons_append, List.find?_cons_of_neg _ (by simp [hx])]
    exact find_append_skip p l1 r l2 (fun y hy => h y (List.mem_cons_of_mem _ hy)) hr

/-- The parsed collection is kept sorted by numeric id, newest first, and
`getACPByNumber` returns the first record of that order whose id matches
(`none` when no record matches, the earliest match winning on duplicate
ids). -/
theorem getAllLocalACPs_sorted_find (files : List (String × String)) (n : String) :
    (getAllLocalACPs files).Pairwise
      (fun a b => jsNumber b.number ≤ jsNumber a.number) ∧
    ((∀ r ∈ getAllLocalACPs files, r.number ≠ n) → getACPByNumber files n = none) ∧
    (∀ l1 r l2, getAllLocalACPs files = l1 ++ r :: l2 → r.number = n →
      (∀ x ∈ l1, x.number ≠ n) → getACPByNumber files n = some r) := by
  refine ⟨?_, fun h => ?_, fun l1 r l2 heq hr h1 => ?_⟩
  · haveI : IsTotal LocalACP
        (fun a b => jsNumber b.number - jsNumber a.number ≤ 0) :=
      ⟨fun a b => by omega⟩
    haveI : IsTrans LocalACP
        (fun a b => jsNumber b.number - jsNumber a.number ≤ 0) :=
      ⟨fun a b c hab hbc => by omega⟩
    have hs := List.sorted_insertionSort
      (fun a b : LocalACP => jsNumber b.number - jsNumber a.number ≤ 0)
      (files.filterMap (fun f => parseACPMarkdown f.2 f.1))
    exact hs.imp (fun hle => by omega)
  · exact List.find?_eq_none.mpr (fun x hx => by simp [h x hx])
  · unfold getACPByNumber
    rw [heq]
    exact find_append_skip _ l1 r l2 (fun x hx => by simp [h1 x hx]) (by simp [hr])

/-- Instantiation of `getAllLocalACPs_sorted_find`: looking up an id absent
from a concrete parsed collection yields `none`. -/
theorem getAllLocalACPs_sorted_find_inst : getACPByNumber sampleFiles "9" = none :=
  (getAllLocalACPs_sorted_find sampleFiles "9").2.1 (by decide)

/-! ### Scanning lemmas for the status parser -/

/-- `takeWhile` consumes a block of satisfying elements up to a failing
continuation head. -/
theorem takeWhile_all_append_head (p : α → Bool) :
    ∀ l post : List α, (∀ c ∈ l, p c = true) →
      (∀ x, post.head? = some x → p x = false) →
      (l ++ post).takeWhile p = l
  | [], post, _, hpost => by
    cases post with
    | nil => rfl
    | cons x t => simp [List.takeWhile_cons, hpost x rfl]
  | c :: l, post, hl, hpost => by
    have hc : p c = true := hl c (by simp)
    simp only [List.cons_append, List.takeWhile_cons, hc, if_true]
    rw [takeWhile_all_append_head p l post
      (fun d hd => hl d (List.mem_cons_of_mem _ hd)) hpost]

/-- `dropWhile` drops a block of satisfying elements up to a failing
continuation head. -/
theorem dropWhile_all_append_head (p : α → Bool) :
    ∀ l post : List α, (∀ c ∈ l, p c = true) →
      (∀ x, post.head? = some x → p x = false) →
      (l ++ post).dropWhile p = post
  | [], post, _, hpost => by
    cases post with
    | nil => rfl
    | cons x t => simp [List.dropWhile_cons, hpost x rfl]
  | c :: l, post, hl, hpost => by
    have hc : p c = true := hl c (by simp)
    simp only [List.cons_append, List.dropWhile_cons, hc, if_true]
    exact dropWhile_all_append_head p l post
      (fun d hd => hl d (List.mem_cons_of_mem _ hd)) hpost

/-- `dropWhile` is the identity when the head already fails. -/
theorem dropWhile_eq_self_of_head (p : α → Bool) (l : List α)
    (h : ∀ x, l.head? = some x → p x = false) : l.dropWhile p = l := by
  cases l with
  | nil => rfl
  | cons x t => simp [List.dropWhile_cons, h x rfl]

/-- A string without whitespace characters is its own trim. -/
theorem jsTrim_of_no_ws (w : String) (h : ∀ c ∈ w.data, isWs c = false) :
    jsTrim w = w := by
  apply String.ext
  show trimChars w.data = w.data
  unfold trimChars
  rw [dropWhile_eq_self_of_head _ _
      (fun x hx => h x (List.mem_of_mem_head? hx)),
    dropWhile_eq_self_of_head _ _
      (fun x hx => h x (List.mem_reverse.mp (List.mem_of_mem_head? hx))),
    List.reverse_reverse]

/-- The bracket alternative fails at any position not starting with `[`. -/
theorem statusBracket_not_bracket (c : Char) (l : List Char) (h : c ≠ '[') :
    statusBracket (c :: l) = none := by
  unfold statusBracket
  split
  · next heq =>
      injection heq with h1 _
      exact absurd h1 h
  · rfl

/-- The bracket alternative captures a closed, non-empty group. -/
theorem statusBracket_closed (lab post : List Char) (hne : lab ≠ [])
    (hlab : ∀ c ∈ lab, c ≠ ']') :
    statusBracket ('[' :: (lab ++ ']' :: post)) = some lab := by
  show (let inside := (lab ++ ']' :: post).takeWhile (fun c => c ≠ ']')
        let rem := (lab ++ ']' :: post).dropWhile (fun c => c ≠ ']')
        if inside ≠ [] ∧ rem ≠ [] then some inside else none) = some lab
  rw [takeWhile_all_append_head _ lab (']' :: post)
      (fun c hc => by simp [hlab c hc])
      (fun x hx => by
        simp only [List.head?] at hx
        injection hx with hx
        simp [hx.symm]),
    dropWhile_all_append_head _ lab (']' :: post)
      (fun c hc => by simp [hlab c hc])
      (fun x hx => by
        simp only [List.head?] at hx
        injection hx with hx
        simp [hx.symm])]
  simp [hne]

/-- A word character is not a whitespace character. -/
theorem word_not_ws (c : Char) (h : isWordChar c = true) : isWs c = false := by
  cases hw : isWs c with
  | false => rfl
  | true =>
    exfalso
    have : c = ' ' ∨ c = '\t' ∨ c = '\r' ∨ c = '\n' := by
      simpa [isWs, Char.isWhitespace, or_assoc] using hw
    rcases this with rfl | rfl | rfl | rfl <;> exact absurd h (by decide)

/-- A word character is not an opening bracket. -/
theorem word_not_bracket (c : Char) (h : isWordChar c = true) : c ≠ '[' := by
  intro heq
  subst heq
  exact absurd h (by decide)

/-- The status scan ignores a run of characters that can start neither
alternative. -/
theorem statusScan_skip :
    ∀ pre rest : List Char, (∀ c ∈ pre, isWordChar c = false ∧ c ≠ '[') →
      statusScan false (pre ++ rest) = statusScan false rest
  | [], _, _ => rfl
  | c :: pre, rest, h => by
    obtain ⟨hw, hb⟩ := h c (by simp)
    show statusScan false (c :: (pre ++ rest)) = _
    rw [statusScan, statusBracket_not_bracket c _ hb]
    simp only [hw, Bool.false_and, Bool.false_eq_true, if_false]
    exact statusScan_skip pre rest (fun d hd => h d (List.mem_cons_of_mem _ hd))

/-- On input without word characters or opening brackets the status scan
finds nothing. -/
theorem statusScan_none :
    ∀ l : List Char, (∀ c ∈ l, isWordChar c = false ∧ c ≠ '[') →
      ∀ prevW, statusScan prevW l = none
  | [], _, _ => rfl
  | c :: l, h, prevW => by
    obtain ⟨hw, hb⟩ := h c (by simp)
    rw [statusScan, statusBracket_not_bracket c _ hb]
    simp only [hw, Bool.false_and, Bool.false_eq_true, if_false]
    exact statusScan_none l (fun d hd => h d (List.mem_cons_of_mem _ hd)) _

/-- `parseStatus` on `"Draft [Activated](url)"` returns the leading bare
word, not the bracketed label present later in the cell. -/
theorem parseStatus_bracket_counterexample :
    parseStatus "Draft [Activated](url)" = "Draft" ∧
    parseStatus "Draft [Activated](url)" ≠ "Activated" := by
  constructor <;> decide

/-- The corrected status contract: the first bracketed label wins only when
its bracket occurs before any bare word token; a bare word token first
makes the word the result; a cell offering neither yields `"Unknown"`. -/
theorem parseStatus_alternation :
    (∀ pre lab post : String,
      (∀ c ∈ pre.data, isWordChar c = false ∧ c ≠ '[') →
      lab.data ≠ [] → (∀ c ∈ lab.data, c ≠ ']') →
      parseStatus (pre ++ "[" ++ lab ++ "]" ++ post) = jsTrim lab) ∧
    (∀ pre w post : String,
      (∀ c ∈ pre.data, isWordChar c = false ∧ c ≠ '[') →
      w.data ≠ [] → (∀ c ∈ w.data, isWordChar c = true) →
      (∀ x, post.data.head? = some x → isWordChar x = false) →
      parseStatus (pre ++ w ++ post) = w) ∧
    (∀ s : String, (∀ c ∈ s.data, isWordChar c = false ∧ c ≠ '[') →
      parseStatus s = "Unknown") := by
  refine ⟨fun pre lab post hpre hne hlab => ?_, fun pre w post hpre hne hw hpost => ?_,
    fun s hs => ?_⟩
  · unfold parseStatus
    have hdata : (pre ++ "[" ++ lab ++ "]" ++ post).data =
        pre.data ++ ('[' :: (lab.data ++ ']' :: post.data)) := by
      simp [String.data_append]
    rw [hdata, statusScan_skip pre.data _ hpre]
    rw [statusScan, statusBracket_closed lab.data post.data hne hlab]
    rfl
  · unfold parseStatus
    obtain ⟨c, w', hcw⟩ : ∃ c w', w.data = c :: w' := by
      cases hwd : w.data with
      | nil => exact absurd hwd hne
      | cons c w' => exact ⟨c, w', rfl⟩
    have hdata : (pre ++ w ++ post).data =
        pre.data ++ (c :: (w' ++ post.data)) := by
      simp [String.data_append, hcw]
    have hc : isWordChar c = true := hw c (by rw [hcw]; simp)
    rw [hdata, statusScan_skip pre.data _ hpre]
    rw [statusScan, statusBracket_not_bracket c _ (word_not_bracket c hc)]
    simp only [hc, Bool.not_false, Bool.and_self, if_true]
    rw [takeWhile_all_append_head isWordChar w' post.data
      (fun d hd => hw d (by rw [hcw]; exact List.mem_cons_of_mem _ hd)) hpost]
    show jsTrim ⟨c :: w'⟩ = w
    rw [← hcw]
    exact jsTrim_of_no_ws w (fun d hd => word_not_ws d (hw d hd))
  · unfold parseStatus
    rw [statusScan_none s.data hs false]
    decide

/-- Instantiation of `parseStatus_alternation` on all three clauses. -/
theorem parseStatus_alternation_inst :
    parseStatus (" " ++ "[" ++ "Activated" ++ "]" ++ "(x)") = "Activated" ∧
    parseStatus (" " ++ "Draft" ++ "!") = "Draft" ∧
    parseStatus " - " = "Unknown" := by
  refine ⟨?_, ?_, ?_⟩
  · rw [parseStatus_alternation.1 " " "Activated" "(x)" (by decide) (by decide)
      (by decide)]
    decide
  · exact parseStatus_alternation.2.1 " " "Draft" "!" (by decide) (by decide)
      (by decide) (by decide)
  · exact parseStatus_alternation.2.2 " - " (by decide)

set_option maxRecDepth 10000 in
/-- On the fallback path the found line is truncated at exactly position
200 with an ellipsis appended — not at the last whitespace boundary the way
the Abstract-section path (`truncAbs`) truncates: the two disagree on
`fallbackDoc`'s prose line, whose last space before 200 sits at index
100. -/
theorem extractAbstract_fallback_counterexample :
    extractAbstract fallbackDoc ≠ truncAbs longLine ∧
    extractAbstract fallbackDoc = strTake longLine 200 ++ "..." := by
  constructor <;> decide

/-- The corrected fallback contract: whenever the heading path misses and
the fallback scan finds line `l`, the result is `l` itself when it fits,
and otherwise the plain 200-character cut of `l` with an ellipsis
appended. -/
theorem extractAbstract_fallback_truncation (markdown l : String)
    (hh : abstractHeading markdown = none)
    (hf : fallbackScan false (splitLines markdown) = some l) :
    extractAbstract markdown =
      (if l.length > 200 then strTake l 200 ++ "..." else l) := by
  unfold extractAbstract
  rw [hh, hf]

set_option maxRecDepth 10000 in
/-- Instantiation of `extractAbstract_fallback_truncation` on
`fallbackDoc`. -/
theorem extractAbstract_fallback_truncation_inst :
    extractAbstract fallbackDoc = strTake longLine 200 ++ "..." := by
  rw [extractAbstract_fallback_truncation fallbackDoc longLine (by decide) (by decide)]
  decide

end ACP
